import Mathlib

/-!
# crawl_r: sitemap walker and scrape pool

A shallow embedding of `main.go`.

* The network and the HTML parser are the environment: `Env.makeRequest` stands for
  `makeRequest` (one HTTP GET, `none` for a transport error) and `Env.extractUrls` for
  `extractUrls` (the `goquery` parse of the body, `none` for a parse error).  Both are
  functions: within one run a URL answers the same way each time it is requested.
* `isSiteMap`, `scrapePage` are pure functions of their inputs.
* `extractSiteMapUrls` and `scrapeUrls` start goroutines.  Each is embedded as a
  transition system: a state holding the shared variables and the list of live
  goroutines with their program point, and a function that runs one atomic section of a
  chosen goroutine.  A schedule (a list of numbers) says which goroutine moves next, so a
  statement quantified over all schedules is a statement about every interleaving.
  An atomic section is a stretch of code that touches the shared variables only under
  the mutex (or not at all).  Starting a goroutine is folded into the step that reaches
  the `go` statement: a started goroutine that has not moved yet has done nothing.
* Wall-clock time is not part of the embedding.  The 10-minute timer of
  `extractSiteMapUrls` appears only as the length of the schedule: the `select` returns
  either when the walk is over or earlier.
-/

namespace CrawlR

/-- The struct `SeoData`. -/
structure SeoData where
  URL : String
  Title : String
  H1 : String
  MetaDescription : String
  StatusCode : Int
deriving DecidableEq, Repr

/-- The part of `*http.Response` the program reads: the status code and the body. -/
structure Response where
  StatusCode : Int
  Body : String
deriving DecidableEq, Repr

/-- The environment of one run: what a GET of a URL answers (`none` is the `err != nil`
return of `makeRequest`) and what `extractUrls` finds in a response (`none` is its
error return). -/
structure Env where
  makeRequest : String → Option Response
  extractUrls : Response → Option (List String)

/-- `strings.Contains(s, substr)` on the characters of the two strings: some suffix of
`s` starts with `substr`.  (Go searches bytes; for the ASCII needle "xml" and UTF-8
text the two searches agree.) -/
def stringsContains : List Char → List Char → Bool
  | [], substr => substr.isEmpty
  | c :: s, substr => substr.isPrefixOf (c :: s) || stringsContains s substr

/-- The test of `isSiteMap`: `strings.Contains(page, "xml")`. -/
def foundSitemap (page : String) : Bool :=
  stringsContains page.data "xml".data

/-- `isSiteMap`: the loop over `urls` appending each element to `sitemapFiles` or to
`pages`; returns `(sitemapFiles, pages)`. -/
def isSiteMap (urls : List String) : List String × List String :=
  urls.foldl
    (fun (acc : List String × List String) (page : String) =>
      if foundSitemap page then (acc.1 ++ [page], acc.2) else (acc.1, acc.2 ++ [page]))
    ([], [])

/-- `scrapePage` without the token channel (the channel is part of `PoolState`): the
request, then the `SeoData` literal with only `URL` and `StatusCode` set. -/
def scrapePage (env : Env) (url : String) : Option SeoData :=
  match env.makeRequest url with
  | none => none
  | some res =>
    some { URL := url, Title := "", H1 := "", MetaDescription := "", StatusCode := res.StatusCode }

/-! ## Scheduling -/

/-- The `n`-th element of `l` that satisfies `ok`, with the elements before and after
it. -/
def pick {α : Type} (ok : α → Bool) : List α → Nat → Option (List α × α × List α)
  | [], _ => none
  | a :: l, n =>
    if ok a then
      match n with
      | 0 => some ([], a, l)
      | m + 1 => (pick ok l m).map (fun r => (a :: r.1, r.2.1, r.2.2))
    else (pick ok l n).map (fun r => (a :: r.1, r.2.1, r.2.2))

/-- The scheduler's choice `i` among the goroutines of `l` that can move. -/
def choose {α : Type} (ok : α → Bool) (l : List α) (i : Nat) : Option (List α × α × List α) :=
  pick ok l (i % l.countP ok)

/-! ## extractSiteMapUrls -/

/-- A goroutine running the closure `crawl`, at one of its three program points. -/
inductive Crawler where
  /-- At the entry of `crawl(url, depth)`. -/
  | crawl (url : String) (depth : Nat)
  /-- Past the depth test and the visited test, `visited[url]` set; before the
  `makeRequest` call. -/
  | request (url : String) (depth : Nat)
  /-- After `isSiteMap`; before the append to `toCrawl` and the loop starting the
  children. -/
  | publish (url : String) (depth : Nat) (sitemapFiles pages : List String)
deriving DecidableEq, Repr

/-- The variables shared by the goroutines of one `extractSiteMapUrls` call.
`processed` is the log: one entry per line `Processing URL (depth d): url`, which is
printed right before each `makeRequest` call.  `pool` holds the goroutines that have not
returned and are not blocked in `wg.Wait()`.  A goroutine blocked in `wg.Wait()` touches
no shared variable and returns once the goroutines it started have returned, so
`crawl(url, 0)` can return exactly when `pool` is empty. -/
structure WalkState where
  visited : List String
  toCrawl : List String
  processed : List (String × Nat)
  pool : List Crawler
deriving DecidableEq, Repr

/-- One atomic section of the crawler `g`; `before` and `after` are the other live
goroutines. -/
def crawlStep (env : Env) (s : WalkState) (before after : List Crawler) : Crawler → WalkState
  | .crawl url depth =>
    if depth > 10 then { s with pool := before ++ after }
    else if url ∈ s.visited then { s with pool := before ++ after }
    else { s with visited := url :: s.visited, pool := before ++ .request url depth :: after }
  | .request url depth =>
    match env.makeRequest url with
    | none => { s with processed := s.processed ++ [(url, depth)], pool := before ++ after }
    | some response =>
      match env.extractUrls response with
      | none => { s with processed := s.processed ++ [(url, depth)], pool := before ++ after }
      | some urls =>
        { s with
          processed := s.processed ++ [(url, depth)]
          pool := before ++ .publish url depth (isSiteMap urls).1 (isSiteMap urls).2 :: after }
  | .publish _ depth sitemapFiles pages =>
    { s with
      toCrawl := s.toCrawl ++ pages
      pool := before ++ after ++ sitemapFiles.map (fun sitemapURL => .crawl sitemapURL (depth + 1)) }

/-- One step of the walk: the scheduler picks a live crawler, which runs one atomic
section.  With no live crawler the state stays. -/
def walkStep (env : Env) (s : WalkState) (i : Nat) : WalkState :=
  match choose (fun _ => true) s.pool i with
  | none => s
  | some (before, g, after) => crawlStep env s before after g

/-- The walk under a schedule. -/
def walkRun (env : Env) (s : WalkState) : List Nat → WalkState
  | [] => s
  | i :: sched => walkRun env (walkStep env s i) sched

/-- The state in which `go func() { crawl(url, 0); done <- true }()` starts. -/
def walkInit (url : String) : WalkState :=
  { visited := [], toCrawl := [], processed := [], pool := [.crawl url 0] }

/-- `extractSiteMapUrls`: `toCrawl` as it is when the `select` returns, after the steps
of `sched`.  When the schedule runs every crawler to its end that is the `done` case;
a shorter schedule is the timeout case. -/
def extractSiteMapUrls (env : Env) (url : String) (sched : List Nat) : List String :=
  (walkRun env (walkInit url) sched).toCrawl

/-- The sequence of URLs passed to `makeRequest` by the walk, in order. -/
def WalkState.requested (s : WalkState) : List String :=
  s.processed.map Prod.fst

/-! ## scrapeUrls -/

/-- A goroutine started by the loop of `scrapeUrls`, at one of its four program
points. -/
inductive Worker where
  /-- Before `tokens <- struct{}{}` in `scrapePage`. -/
  | queued (url : String)
  /-- Holding a slot of `tokens`; before `makeRequest` returns. -/
  | fetching (url : String)
  /-- The result of `scrapePage` is computed; before the deferred `<-tokens`. -/
  | releasing (url : String) (res : Option SeoData)
  /-- Back in the closure, slot released; before the append to `results`. -/
  | collecting (url : String) (res : Option SeoData)
deriving DecidableEq, Repr

/-- The variables shared by the goroutines of one `scrapeUrls` call.  `tokens` is the
number of elements buffered in the channel `tokens`, `requested` the sequence of URLs
passed to `makeRequest`. -/
structure PoolState where
  tokens : Nat
  results : List SeoData
  requested : List String
  workers : List Worker
deriving DecidableEq, Repr

/-- A worker can move unless it is about to send on a full `tokens` channel. -/
def canMove (concurrency : Nat) (s : PoolState) : Worker → Bool
  | .queued _ => decide (s.tokens < concurrency)
  | _ => true

/-- One atomic section of the worker `w`. -/
def workerStep (env : Env) (s : PoolState) (before after : List Worker) : Worker → PoolState
  | .queued url => { s with tokens := s.tokens + 1, workers := before ++ .fetching url :: after }
  | .fetching url =>
    { s with
      requested := s.requested ++ [url]
      workers := before ++ .releasing url (scrapePage env url) :: after }
  | .releasing url res =>
    { s with tokens := s.tokens - 1, workers := before ++ .collecting url res :: after }
  | .collecting _ res =>
    match res with
    | none => { s with workers := before ++ after }
    | some r => { s with results := s.results ++ [r], workers := before ++ after }

/-- One step of the pool: the scheduler picks a worker that can move. -/
def poolStep (env : Env) (concurrency : Nat) (s : PoolState) (i : Nat) : PoolState :=
  match choose (canMove concurrency s) s.workers i with
  | none => s
  | some (before, w, after) => workerStep env s before after w

/-- The pool under a schedule. -/
def poolRun (env : Env) (concurrency : Nat) (s : PoolState) : List Nat → PoolState
  | [] => s
  | i :: sched => poolRun env concurrency (poolStep env concurrency s i) sched

/-- The state after the loop of `scrapeUrls` has started one goroutine per element of
`urls`; none has moved yet. -/
def poolInit (urls : List String) : PoolState :=
  { tokens := 0, results := [], requested := [], workers := urls.map Worker.queued }

/-- `scrapeUrls`: `results` once `wg.Wait()` returns, that is once every worker has
ended; `none` while some worker is still live at the end of the schedule. -/
def scrapeUrls (env : Env) (urls : List String) (concurrency : Nat) (sched : List Nat) :
    Option (List SeoData) :=
  let s := poolRun env concurrency (poolInit urls) sched
  if s.workers = [] then some s.results else none

/-- `scrapSiteMaps`: the walk, the early return on an empty list, the pool. -/
def scrapSiteMaps (env : Env) (url : String) (concurrency : Nat) (walkSched poolSched : List Nat) :
    Option (List SeoData) :=
  let results := extractSiteMapUrls env url walkSched
  if results.length = 0 then some [] else scrapeUrls env results concurrency poolSched

/-! ## Specification vocabulary -/

/-- What the walk reads at a URL: the URLs `extractUrls` finds in the answer of
`makeRequest`, `none` when either call fails. -/
def listing (env : Env) (url : String) : Option (List String) :=
  match env.makeRequest url with
  | none => none
  | some response => env.extractUrls response

/-- All URLs listed at `url` (none when the node fails). -/
def listed (env : Env) (url : String) : List String :=
  match listing env url with
  | none => []
  | some urls => urls

/-- The sitemap URLs listed at `url`. -/
def sitemapsOf (env : Env) (url : String) : List String :=
  match listing env url with
  | none => []
  | some urls => (isSiteMap urls).1

/-- The page URLs listed at `url`. -/
def pagesOf (env : Env) (url : String) : List String :=
  match listing env url with
  | none => []
  | some urls => (isSiteMap urls).2

/-- The URLs reached from `seed` by a path of exactly `n` listing edges (an edge goes
from a URL to each URL listed at it), with repetitions. -/
def hops (env : Env) (seed : String) : Nat → List String
  | 0 => [seed]
  | n + 1 => (hops env seed n).flatMap (listed env)

/-- The sitemap URLs at depth `n` of the hierarchy below `seed`: the seed at depth 0,
every sitemap URL listed at a node one deeper than the node; with repetitions. -/
def level (env : Env) (seed : String) : Nat → List String
  | 0 => [seed]
  | n + 1 => (level env seed n).flatMap (sitemapsOf env)

/-- The sitemap nodes of the hierarchy below `seed` at depths `0 .. n - 1`. -/
def hierarchy (env : Env) (seed : String) (n : Nat) : List String :=
  (List.range n).flatMap (level env seed)

/-- The URL a crawler is about to request, if it is at that program point. -/
def Crawler.pendingRequest : Crawler → List String
  | .request url _ => [url]
  | _ => []

/-- The pages a crawler is about to append, if it is at that program point. -/
def Crawler.pendingPages : Crawler → List String
  | .publish _ _ _ pages => pages
  | _ => []

/-- A crawler sits where the hierarchy says: its URL is at its depth, and what it holds
after `isSiteMap` is what its URL lists. -/
def Crawler.wellPlaced (env : Env) (seed : String) : Crawler → Prop
  | .crawl url depth => url ∈ level env seed depth
  | .request url depth => depth ≤ 10 ∧ url ∈ level env seed depth
  | .publish url depth sitemapFiles pages =>
    depth ≤ 10 ∧ url ∈ level env seed depth ∧
      sitemapFiles = sitemapsOf env url ∧ pages = pagesOf env url

/-- A bound on the steps of `crawl(url, depth)` and of all the calls below it, when
`budget = 11 - depth` levels are left. -/
def crawlCost (env : Env) : Nat → String → Nat
  | 0, _ => 1
  | budget + 1, url => 3 + ((sitemapsOf env url).map (crawlCost env budget)).sum

/-- A bound on the steps left to a crawler and the crawlers it will start. -/
def Crawler.cost (env : Env) : Crawler → Nat
  | .crawl url depth => crawlCost env (11 - depth) url
  | .request url depth => 2 + ((sitemapsOf env url).map (crawlCost env (10 - depth))).sum
  | .publish _ depth sitemapFiles _ => 1 + (sitemapFiles.map (crawlCost env (10 - depth))).sum

/-- A bound on the steps left to the walk in state `s`. -/
def walkCost (env : Env) (s : WalkState) : Nat :=
  (s.pool.map (Crawler.cost env)).sum

/-- Invariant of the walk on the visited set, the request log and the crawlers about to
request. -/
structure VisitedInv (s : WalkState) : Prop where
  nodup : s.visited.Nodup
  perm : s.visited.Perm (s.requested ++ s.pool.flatMap Crawler.pendingRequest)

/-- Invariant of the walk on positions: every live crawler and every log entry sits at
its depth of the hierarchy, and no request is made deeper than 10. -/
structure LevelInv (env : Env) (seed : String) (s : WalkState) : Prop where
  pool : ∀ g ∈ s.pool, g.wellPlaced env seed
  processed : ∀ p ∈ s.processed, p.2 ≤ 10 ∧ p.1 ∈ level env seed p.2

/-- Invariant of the walk on coverage: the seed has been started, and every sitemap
listed at a node requested above depth 10 has been started or is about to be. -/
structure CoverInv (env : Env) (seed : String) (s : WalkState) : Prop where
  seed : seed ∈ s.visited ∨ Crawler.crawl seed 0 ∈ s.pool
  children : ∀ p ∈ s.processed, p.2 < 10 → ∀ c ∈ sitemapsOf env p.1,
    c ∈ s.visited ∨ Crawler.crawl c (p.2 + 1) ∈ s.pool ∨
      ∃ pages, Crawler.publish p.1 p.2 (sitemapsOf env p.1) pages ∈ s.pool

/-- Invariant of the walk on the output: `toCrawl` together with the pages about to be
appended is, up to order, what the requested nodes list as pages. -/
def PagesInv (env : Env) (s : WalkState) : Prop :=
  (s.toCrawl ++ s.pool.flatMap Crawler.pendingPages).Perm (s.requested.flatMap (pagesOf env))

/-- Number of `tokens` slots a worker holds. -/
def Worker.holds : Worker → Nat
  | .fetching _ => 1
  | .releasing _ _ => 1
  | _ => 0

/-- Number of workers that have acquired a slot and not released it. -/
def holders (ws : List Worker) : Nat :=
  (ws.map Worker.holds).sum

/-- Number of workers inside `makeRequest`. -/
def inFlight (ws : List Worker) : Nat :=
  ws.countP (fun w => match w with | .fetching _ => true | _ => false)

/-- The URL a worker has still to request. -/
def Worker.pendingUrl : Worker → List String
  | .queued url => [url]
  | .fetching url => [url]
  | _ => []

/-- The result a worker has still to append. -/
def Worker.pendingResult : Worker → List SeoData
  | .releasing _ (some r) => [r]
  | .collecting _ (some r) => [r]
  | _ => []

/-- Steps left to a worker. -/
def Worker.cost : Worker → Nat
  | .queued _ => 4
  | .fetching _ => 3
  | .releasing _ _ => 2
  | .collecting _ _ => 1

/-- Steps left to the pool. -/
def poolCost (s : PoolState) : Nat :=
  (s.workers.map Worker.cost).sum

/-- Invariant of the pool. -/
structure PoolInv (env : Env) (urls : List String) (concurrency : Nat) (s : PoolState) : Prop where
  tokens_eq : s.tokens = holders s.workers
  tokens_le : s.tokens ≤ concurrency
  urls_perm : urls.Perm (s.requested ++ s.workers.flatMap Worker.pendingUrl)
  results_perm :
    (s.results ++ s.workers.flatMap Worker.pendingResult).Perm
      (s.requested.filterMap (scrapePage env))

/-- The URLs within graph distance `d` of `seed`: reached by a path of at most `d`
listing edges. -/
def within (env : Env) (seed : String) (d : Nat) : List String :=
  (List.range (d + 1)).flatMap (hops env seed)

/-- The status code a page answers (0 when the request fails). -/
def statusOf (env : Env) (url : String) : Int :=
  match env.makeRequest url with
  | none => 0
  | some res => res.StatusCode

/-- The `SeoData` expected for a page: its URL and the status code it answers. -/
def pageResult (env : Env) (url : String) : SeoData :=
  { URL := url, Title := "", H1 := "", MetaDescription := "", StatusCode := statusOf env url }

/-! ## Example environments -/

/-- A chain of twelve sitemaps `0.xml → 1.xml → ... → 11.xml`; `10.xml` also lists the
page `p` and `11.xml` lists the page `q`.  Every request answers 200 with the URL as
body. -/
def chainEnv : Env where
  makeRequest := fun u => some ⟨200, u⟩
  extractUrls := fun r =>
    if r.Body = "0.xml" then some ["1.xml"]
    else if r.Body = "1.xml" then some ["2.xml"]
    else if r.Body = "2.xml" then some ["3.xml"]
    else if r.Body = "3.xml" then some ["4.xml"]
    else if r.Body = "4.xml" then some ["5.xml"]
    else if r.Body = "5.xml" then some ["6.xml"]
    else if r.Body = "6.xml" then some ["7.xml"]
    else if r.Body = "7.xml" then some ["8.xml"]
    else if r.Body = "8.xml" then some ["9.xml"]
    else if r.Body = "9.xml" then some ["10.xml"]
    else if r.Body = "10.xml" then some ["p", "11.xml"]
    else if r.Body = "11.xml" then some ["q"]
    else none

/-- A sitemap that lists itself and one page: a cycle of length one. -/
def cycleEnv : Env where
  makeRequest := fun u => if u = "a.xml" then some ⟨200, ""⟩ else none
  extractUrls := fun _ => some ["a.xml", "p"]

/-- An index `s.xml` listing the sitemaps `a.xml`, `b.xml`, `bad.xml`, `c.xml` and the
page `p0`; `a.xml` and `b.xml` list three pages each, `p1` twice over; the request of
`bad.xml` fails; the body of `c.xml` does not parse; the pages `q3` and `down` cannot
be fetched, `q2` answers 404. -/
def siteEnv : Env where
  makeRequest := fun u =>
    if u = "bad.xml" then none
    else if u = "q3" then none
    else if u = "down" then none
    else if u = "q2" then some ⟨404, ""⟩
    else some ⟨200, u⟩
  extractUrls := fun r =>
    if r.Body = "s.xml" then some ["a.xml", "p0", "b.xml", "bad.xml", "c.xml"]
    else if r.Body = "a.xml" then some ["p1", "p2", "p1"]
    else if r.Body = "b.xml" then some ["q1", "p1", "q2"]
    else none

/-- The happy path of the specification: the index `s.xml` lists the leaf sitemaps
`a.xml` and `b.xml`, each listing three pages, and every request answers 200. -/
def happyEnv : Env where
  makeRequest := fun u => some ⟨200, u⟩
  extractUrls := fun r =>
    if r.Body = "s.xml" then some ["a.xml", "b.xml"]
    else if r.Body = "a.xml" then some ["p1", "p2", "p3"]
    else if r.Body = "b.xml" then some ["q1", "q2", "q3"]
    else none

/-! ## Scheduling lemmas -/

theorem pick_eq_some {α : Type} (ok : α → Bool) :
    ∀ (l : List α) (n : Nat) (b : List α) (g : α) (a : List α),
      pick ok l n = some (b, g, a) → l = b ++ g :: a ∧ ok g = true := by
  intro l
  induction l with
  | nil => intro n b g a h; simp [pick] at h
  | cons x l ih =>
    intro n b g a h
    unfold pick at h
    by_cases hx : ok x = true
    · rw [if_pos hx] at h
      cases n with
      | zero =>
        simp only [Option.some.injEq, Prod.mk.injEq] at h
        obtain ⟨rfl, rfl, rfl⟩ := h
        exact ⟨rfl, hx⟩
      | succ m =>
        simp only [Option.map_eq_some', Prod.mk.injEq] at h
        obtain ⟨⟨b', g', a'⟩, hp, rfl, rfl, rfl⟩ := h
        obtain ⟨hl, hg⟩ := ih m b' g' a' hp
        exact ⟨by simp [hl], hg⟩
    · rw [if_neg hx] at h
      simp only [Option.map_eq_some', Prod.mk.injEq] at h
      obtain ⟨⟨b', g', a'⟩, hp, rfl, rfl, rfl⟩ := h
      obtain ⟨hl, hg⟩ := ih n b' g' a' hp
      exact ⟨by simp [hl], hg⟩

theorem pick_isSome {α : Type} (ok : α → Bool) :
    ∀ (l : List α) (n : Nat), n < l.countP ok → (pick ok l n).isSome = true := by
  intro l
  induction l with
  | nil => intro n h; simp at h
  | cons x l ih =>
    intro n h
    unfold pick
    by_cases hx : ok x = true
    · rw [if_pos hx]
      rw [List.countP_cons_of_pos _ _ hx] at h
      cases n with
      | zero => simp
      | succ m =>
        have := ih m (by omega)
        simpa using this
    · rw [if_neg hx]
      rw [List.countP_cons_of_neg _ _ hx] at h
      have := ih n h
      simpa using this

theorem choose_eq_some {α : Type} {ok : α → Bool} {l : List α} {i : Nat} {b : List α} {g : α}
    {a : List α} (h : choose ok l i = some (b, g, a)) : l = b ++ g :: a ∧ ok g = true :=
  pick_eq_some ok l _ b g a h

theorem choose_isSome {α : Type} (ok : α → Bool) (l : List α) (i : Nat) (h : 0 < l.countP ok) :
    (choose ok l i).isSome = true :=
  pick_isSome ok l _ (Nat.mod_lt _ h)

/-! ## isSiteMap and scrapePage -/

theorem stringsContains_iff (substr : List Char) :
    ∀ s : List Char, stringsContains s substr = true ↔ substr <:+: s := by
  intro s
  induction s with
  | nil => simp [stringsContains, List.isEmpty_iff]
  | cons c s ih =>
    rw [stringsContains, Bool.or_eq_true, ih, List.infix_cons_iff, List.isPrefixOf_iff_prefix]

theorem foundSitemap_iff (page : String) :
    foundSitemap page = true ↔ "xml".data <:+: page.data :=
  stringsContains_iff _ _

theorem isSiteMap_loop (urls : List String) :
    ∀ acc : List String × List String,
      urls.foldl
        (fun (acc : List String × List String) (page : String) =>
          if foundSitemap page then (acc.1 ++ [page], acc.2) else (acc.1, acc.2 ++ [page])) acc
      = (acc.1 ++ urls.filter foundSitemap, acc.2 ++ urls.filter (fun u => !foundSitemap u)) := by
  induction urls with
  | nil => intro acc; simp
  | cons u urls ih =>
    intro acc
    rw [List.foldl_cons, ih]
    by_cases h : foundSitemap u = true <;> simp [h]

theorem isSiteMap_eq (urls : List String) :
    isSiteMap urls = (urls.filter foundSitemap, urls.filter (fun u => !foundSitemap u)) := by
  unfold isSiteMap
  rw [isSiteMap_loop]
  simp

theorem mem_isSiteMap_fst {urls : List String} {u : String} :
    u ∈ (isSiteMap urls).1 ↔ u ∈ urls ∧ foundSitemap u = true := by
  simp [isSiteMap_eq]

theorem mem_isSiteMap_snd {urls : List String} {u : String} :
    u ∈ (isSiteMap urls).2 ↔ u ∈ urls ∧ foundSitemap u = false := by
  simp [isSiteMap_eq]

/-- C1: `isSiteMap` returns the elements containing "xml" and the elements not
containing it, each in input order with duplicates kept; the lengths add up; the
example of the specification. -/
theorem isSiteMap_spec (urls : List String) :
    isSiteMap urls =
        (urls.filter (fun u => decide ("xml".data <:+: u.data)),
         urls.filter (fun u => decide (¬ "xml".data <:+: u.data))) ∧
      (isSiteMap urls).1.length + (isSiteMap urls).2.length = urls.length ∧
      isSiteMap ["a.xml", "b.html", "c/sitemap.xml.gz"] =
        (["a.xml", "c/sitemap.xml.gz"], ["b.html"]) := by
  have h1 : (fun u : String => decide ("xml".data <:+: u.data)) = foundSitemap := by
    funext u
    rw [Bool.eq_iff_iff]
    simp [foundSitemap_iff]
  have h2 : (fun u : String => decide (¬ "xml".data <:+: u.data)) = fun u => !foundSitemap u := by
    funext u
    have := foundSitemap_iff u
    cases hf : foundSitemap u <;> simp_all
  refine ⟨?_, ?_, by decide⟩
  · rw [h1, h2, isSiteMap_eq]
  · rw [isSiteMap_eq]
    have := List.length_eq_countP_add_countP foundSitemap urls
    simp only [List.countP_eq_length_filter] at this
    simp only [Bool.not_eq_true, Bool.decide_eq_false] at this
    show (urls.filter foundSitemap).length + (urls.filter (fun u => !foundSitemap u)).length = _
    omega

/-- C5: `scrapePage` fails exactly when `makeRequest` fails; on any response, whatever
its status code, it returns the requested URL, the response's status code and empty
`Title`, `H1` and `MetaDescription`. -/
theorem scrapePage_spec (env : Env) (url : String) :
    (scrapePage env url = none ↔ env.makeRequest url = none) ∧
      ∀ res, env.makeRequest url = some res →
        scrapePage env url =
          some { URL := url, Title := "", H1 := "", MetaDescription := "",
                 StatusCode := res.StatusCode } := by
  unfold scrapePage
  cases h : env.makeRequest url with
  | none => simp
  | some r => simp

theorem scrapePage_spec_witness :
    siteEnv.makeRequest "q2" = some ⟨404, ""⟩ ∧
      scrapePage siteEnv "q2" =
        some { URL := "q2", Title := "", H1 := "", MetaDescription := "", StatusCode := 404 } :=
  ⟨by decide, (scrapePage_spec siteEnv "q2").2 ⟨404, ""⟩ (by decide)⟩

/-! ## The walk: invariants -/

theorem walkRun_invariant (env : Env) (P : WalkState → Prop)
    (hstep : ∀ s b g a, P s → s.pool = b ++ g :: a → P (crawlStep env s b a g)) :
    ∀ (sched : List Nat) (s : WalkState), P s → P (walkRun env s sched) := by
  intro sched
  induction sched with
  | nil => intro s h; exact h
  | cons i sched ih =>
    intro s h
    apply ih
    unfold walkStep
    cases hc : choose (fun _ => true) s.pool i with
    | none => exact h
    | some r =>
      obtain ⟨b, g, a⟩ := r
      exact hstep s b g a h (choose_eq_some hc).1

theorem listing_eq_some {env : Env} {url : String} {response : Response} {urls : List String}
    (h1 : env.makeRequest url = some response) (h2 : env.extractUrls response = some urls) :
    listing env url = some urls := by
  simp [listing, h1, h2]

theorem listing_eq_none_left {env : Env} {url : String} (h1 : env.makeRequest url = none) :
    listing env url = none := by
  simp [listing, h1]

theorem listing_eq_none_right {env : Env} {url : String} {response : Response}
    (h1 : env.makeRequest url = some response) (h2 : env.extractUrls response = none) :
    listing env url = none := by
  simp [listing, h1, h2]

theorem crawlStep_cases (env : Env) (P : WalkState → Prop) (s : WalkState)
    (b : List Crawler) (g : Crawler) (a : List Crawler)
    (hskip : ∀ u d, g = .crawl u d → (d > 10 ∨ u ∈ s.visited) → P { s with pool := b ++ a })
    (hmark : ∀ u d, g = .crawl u d → d ≤ 10 → u ∉ s.visited →
      P { s with visited := u :: s.visited, pool := b ++ .request u d :: a })
    (hfail : ∀ u d, g = .request u d → listing env u = none →
      P { s with processed := s.processed ++ [(u, d)], pool := b ++ a })
    (hok : ∀ u d urls, g = .request u d → listing env u = some urls →
      P { s with
          processed := s.processed ++ [(u, d)]
          pool := b ++ .publish u d (isSiteMap urls).1 (isSiteMap urls).2 :: a })
    (hpub : ∀ u d sms pages, g = .publish u d sms pages →
      P { s with
          toCrawl := s.toCrawl ++ pages
          pool := b ++ a ++ sms.map (fun sitemapURL => .crawl sitemapURL (d + 1)) }) :
    P (crawlStep env s b a g) := by
  cases g with
  | crawl u d =>
    by_cases h1 : d > 10
    · simpa [crawlStep, h1] using hskip u d rfl (Or.inl h1)
    · by_cases h2 : u ∈ s.visited
      · simpa [crawlStep, h1, h2] using hskip u d rfl (Or.inr h2)
      · simpa [crawlStep, h1, h2] using hmark u d rfl (by omega) h2
  | request u d =>
    cases h1 : env.makeRequest u with
    | none => simpa [crawlStep, h1] using hfail u d rfl (listing_eq_none_left h1)
    | some response =>
      cases h2 : env.extractUrls response with
      | none => simpa [crawlStep, h1, h2] using hfail u d rfl (listing_eq_none_right h1 h2)
      | some urls => simpa [crawlStep, h1, h2] using hok u d urls rfl (listing_eq_some h1 h2)
  | publish u d sms pages => simpa [crawlStep] using hpub u d sms pages rfl

theorem visitedInv_step (env : Env) (s : WalkState) (b : List Crawler) (g : Crawler)
    (a : List Crawler) (h : VisitedInv s) (hp : s.pool = b ++ g :: a) :
    VisitedInv (crawlStep env s b a g) := by
  obtain ⟨hn, hperm⟩ := h
  rw [hp, List.perm_iff_count] at hperm
  apply crawlStep_cases
  · rintro u d rfl -
    refine ⟨hn, List.perm_iff_count.2 fun x => ?_⟩
    have := hperm x
    simp only [WalkState.requested, Crawler.pendingRequest, List.flatMap_append,
      List.flatMap_cons, List.count_append, List.count_nil] at this ⊢
    omega
  · rintro u d rfl - h2
    refine ⟨List.nodup_cons.2 ⟨h2, hn⟩, List.perm_iff_count.2 fun x => ?_⟩
    have := hperm x
    simp only [WalkState.requested, Crawler.pendingRequest, List.flatMap_append,
      List.flatMap_cons, List.count_append, List.count_nil, List.count_cons] at this ⊢
    omega
  · rintro u d rfl -
    refine ⟨hn, List.perm_iff_count.2 fun x => ?_⟩
    have := hperm x
    simp only [WalkState.requested, Crawler.pendingRequest, List.flatMap_append,
      List.flatMap_cons, List.count_append, List.count_nil, List.count_cons, List.map_append,
      List.map_cons, List.map_nil] at this ⊢
    omega
  · rintro u d urls rfl -
    refine ⟨hn, List.perm_iff_count.2 fun x => ?_⟩
    have := hperm x
    simp only [WalkState.requested, Crawler.pendingRequest, List.flatMap_append,
      List.flatMap_cons, List.count_append, List.count_nil, List.count_cons, List.map_append,
      List.map_cons, List.map_nil] at this ⊢
    omega
  · rintro u d sms pages rfl
    refine ⟨hn, List.perm_iff_count.2 fun x => ?_⟩
    have := hperm x
    have hz : (sms.map (fun sitemapURL => Crawler.crawl sitemapURL (d + 1))).flatMap
        Crawler.pendingRequest = [] := by
      simp [List.flatMap_eq_nil_iff, Crawler.pendingRequest]
    simp only [WalkState.requested, Crawler.pendingRequest, List.flatMap_append, hz,
      List.flatMap_cons, List.count_append, List.count_nil] at this ⊢
    omega

theorem pagesInv_step (env : Env) (s : WalkState) (b : List Crawler) (g : Crawler)
    (a : List Crawler) (h : PagesInv env s) (hp : s.pool = b ++ g :: a) :
    PagesInv env (crawlStep env s b a g) := by
  unfold PagesInv at h
  rw [hp, List.perm_iff_count] at h
  apply crawlStep_cases
  · rintro u d rfl -
    refine List.perm_iff_count.2 fun x => ?_
    have := h x
    simp only [WalkState.requested, Crawler.pendingPages, List.flatMap_append,
      List.flatMap_cons, List.count_append, List.count_nil] at this ⊢
    omega
  · rintro u d rfl - -
    refine List.perm_iff_count.2 fun x => ?_
    have := h x
    simp only [WalkState.requested, Crawler.pendingPages, List.flatMap_append,
      List.flatMap_cons, List.count_append, List.count_nil] at this ⊢
    omega
  · rintro u d rfl hl
    refine List.perm_iff_count.2 fun x => ?_
    have := h x
    have hpg : pagesOf env u = [] := by simp [pagesOf, hl]
    simp only [WalkState.requested, Crawler.pendingPages, List.flatMap_append,
      List.flatMap_cons, List.count_append, List.count_nil, List.map_append,
      List.map_cons, List.map_nil, List.flatMap_nil, hpg] at this ⊢
    omega
  · rintro u d urls rfl hl
    refine List.perm_iff_count.2 fun x => ?_
    have := h x
    have hpg : pagesOf env u = (isSiteMap urls).2 := by simp [pagesOf, hl]
    simp only [WalkState.requested, Crawler.pendingPages, List.flatMap_append,
      List.flatMap_cons, List.count_append, List.count_nil, List.map_append,
      List.map_cons, List.map_nil, List.flatMap_nil, hpg, List.append_nil] at this ⊢
    omega
  · rintro u d sms pages rfl
    refine List.perm_iff_count.2 fun x => ?_
    have := h x
    have hz : (sms.map (fun sitemapURL => Crawler.crawl sitemapURL (d + 1))).flatMap
        Crawler.pendingPages = [] := by
      simp [List.flatMap_eq_nil_iff, Crawler.pendingPages]
    simp only [WalkState.requested, Crawler.pendingPages, List.flatMap_append, hz,
      List.flatMap_cons, List.count_append, List.count_nil] at this ⊢
    omega

theorem levelInv_step (env : Env) (seed : String) (s : WalkState) (b : List Crawler)
    (g : Crawler) (a : List Crawler) (h : LevelInv env seed s) (hp : s.pool = b ++ g :: a) :
    LevelInv env seed (crawlStep env s b a g) := by
  obtain ⟨hpool, hproc⟩ := h
  rw [hp] at hpool
  have hg := hpool g (by simp)
  have hrest : ∀ x ∈ b ++ a, x.wellPlaced env seed := by
    intro x hx
    apply hpool
    rcases List.mem_append.1 hx with h | h <;> simp [h]
  apply crawlStep_cases
  · rintro u d rfl -
    exact ⟨hrest, hproc⟩
  · rintro u d rfl hd -
    refine ⟨?_, hproc⟩
    intro x hx
    simp only [List.mem_append, List.mem_cons] at hx
    rcases hx with hx | rfl | hx
    · exact hrest x (List.mem_append_left _ hx)
    · exact ⟨hd, hg⟩
    · exact hrest x (List.mem_append_right _ hx)
  · rintro u d rfl -
    refine ⟨hrest, ?_⟩
    intro p hp'
    simp only [List.mem_append, List.mem_singleton] at hp'
    rcases hp' with hp' | rfl
    · exact hproc p hp'
    · exact hg
  · rintro u d urls rfl hl
    refine ⟨?_, ?_⟩
    · intro x hx
      simp only [List.mem_append, List.mem_cons] at hx
      rcases hx with hx | rfl | hx
      · exact hrest x (List.mem_append_left _ hx)
      · exact ⟨hg.1, hg.2, by simp [sitemapsOf, hl], by simp [pagesOf, hl]⟩
      · exact hrest x (List.mem_append_right _ hx)
    · intro p hp'
      simp only [List.mem_append, List.mem_singleton] at hp'
      rcases hp' with hp' | rfl
      · exact hproc p hp'
      · exact hg
  · rintro u d sms pages rfl
    refine ⟨?_, hproc⟩
    intro x hx
    simp only [List.mem_append, List.mem_map] at hx
    rcases hx with hx | ⟨c, hc, rfl⟩
    · exact hrest x (List.mem_append.2 hx)
    · obtain ⟨-, hu, hs, -⟩ := hg
      show c ∈ (level env seed d).flatMap (sitemapsOf env)
      exact List.mem_flatMap.2 ⟨u, hu, hs ▸ hc⟩

theorem coverInv_step (env : Env) (seed : String) (s : WalkState) (b : List Crawler)
    (g : Crawler) (a : List Crawler) (h : CoverInv env seed s) (hp : s.pool = b ++ g :: a) :
    CoverInv env seed (crawlStep env s b a g) := by
  obtain ⟨hseed, hch⟩ := h
  rw [hp] at hseed hch
  simp only [List.mem_append, List.mem_cons] at hseed hch
  apply crawlStep_cases
  · rintro u d rfl hskip
    refine ⟨?_, ?_⟩
    · rcases hseed with h | h | h | h
      · exact Or.inl h
      · exact Or.inr (List.mem_append_left _ h)
      · injection h with h1 h2
        subst h1 h2
        rcases hskip with h | h
        · omega
        · exact Or.inl h
      · exact Or.inr (List.mem_append_right _ h)
    · intro p hp' hlt c hc
      rcases hch p hp' hlt c hc with h | (h | h | h) | ⟨pages, h | h | h⟩
      · exact Or.inl h
      · exact Or.inr (Or.inl (List.mem_append_left _ h))
      · injection h with h1 h2
        subst h1 h2
        rcases hskip with h | h
        · omega
        · exact Or.inl h
      · exact Or.inr (Or.inl (List.mem_append_right _ h))
      · exact Or.inr (Or.inr ⟨pages, List.mem_append_left _ h⟩)
      · cases h
      · exact Or.inr (Or.inr ⟨pages, List.mem_append_right _ h⟩)
  · rintro u d rfl - -
    refine ⟨?_, ?_⟩
    · rcases hseed with h | h | h | h
      · exact Or.inl (List.mem_cons_of_mem _ h)
      · exact Or.inr (by simp [h])
      · injection h with h1 h2
        subst h1 h2
        exact Or.inl (List.mem_cons_self _ _)
      · exact Or.inr (by simp [h])
    · intro p hp' hlt c hc
      rcases hch p hp' hlt c hc with h | (h | h | h) | ⟨pages, h | h | h⟩
      · exact Or.inl (List.mem_cons_of_mem _ h)
      · exact Or.inr (Or.inl (by simp [h]))
      · injection h with h1 h2
        subst h1 h2
        exact Or.inl (List.mem_cons_self _ _)
      · exact Or.inr (Or.inl (by simp [h]))
      · exact Or.inr (Or.inr ⟨pages, by simp [h]⟩)
      · cases h
      · exact Or.inr (Or.inr ⟨pages, by simp [h]⟩)
  · rintro u d rfl hl
    refine ⟨?_, ?_⟩
    · rcases hseed with h | h | h | h
      · exact Or.inl h
      · exact Or.inr (List.mem_append_left _ h)
      · cases h
      · exact Or.inr (List.mem_append_right _ h)
    · intro p hp' hlt c hc
      simp only [List.mem_append, List.mem_singleton] at hp'
      rcases hp' with hp' | rfl
      · rcases hch p hp' hlt c hc with h | (h | h | h) | ⟨pages, h | h | h⟩
        · exact Or.inl h
        · exact Or.inr (Or.inl (List.mem_append_left _ h))
        · cases h
        · exact Or.inr (Or.inl (List.mem_append_right _ h))
        · exact Or.inr (Or.inr ⟨pages, List.mem_append_left _ h⟩)
        · cases h
        · exact Or.inr (Or.inr ⟨pages, List.mem_append_right _ h⟩)
      · simp [sitemapsOf, hl] at hc
  · rintro u d urls rfl hl
    refine ⟨?_, ?_⟩
    · rcases hseed with h | h | h | h
      · exact Or.inl h
      · exact Or.inr (by simp [h])
      · cases h
      · exact Or.inr (by simp [h])
    · intro p hp' hlt c hc
      simp only [List.mem_append, List.mem_singleton] at hp'
      rcases hp' with hp' | rfl
      · rcases hch p hp' hlt c hc with h | (h | h | h) | ⟨pages, h | h | h⟩
        · exact Or.inl h
        · exact Or.inr (Or.inl (by simp [h]))
        · cases h
        · exact Or.inr (Or.inl (by simp [h]))
        · exact Or.inr (Or.inr ⟨pages, by simp [h]⟩)
        · cases h
        · exact Or.inr (Or.inr ⟨pages, by simp [h]⟩)
      · refine Or.inr (Or.inr ⟨(isSiteMap urls).2, ?_⟩)
        simp [sitemapsOf, hl]
  · rintro u d sms pages rfl
    refine ⟨?_, ?_⟩
    · rcases hseed with h | h | h | h
      · exact Or.inl h
      · exact Or.inr (by simp [h])
      · cases h
      · exact Or.inr (by simp [h])
    · intro p hp' hlt c hc
      rcases hch p hp' hlt c hc with h | (h | h | h) | ⟨pages', h | h | h⟩
      · exact Or.inl h
      · exact Or.inr (Or.inl (by simp [h]))
      · cases h
      · exact Or.inr (Or.inl (by simp [h]))
      · exact Or.inr (Or.inr ⟨pages', by simp [h]⟩)
      · injection h with h1 h2 h3 h4
        subst h1 h2 h3 h4
        refine Or.inr (Or.inl ?_)
        simp only [List.mem_append, List.mem_map]
        exact Or.inr ⟨c, hc, rfl⟩
      · exact Or.inr (Or.inr ⟨pages', by simp [h]⟩)


/-! ## The walk: termination -/

theorem crawlCost_pos (env : Env) (budget : Nat) (url : String) : 0 < crawlCost env budget url := by
  cases budget <;> simp [crawlCost]

theorem crawler_cost_pos (env : Env) (g : Crawler) : 0 < g.cost env := by
  cases g with
  | crawl u d => exact crawlCost_pos env _ _
  | request u d => simp [Crawler.cost]
  | publish u d sms pages => simp [Crawler.cost]

theorem walkCost_step (env : Env) (s : WalkState) (b : List Crawler) (g : Crawler)
    (a : List Crawler) (hp : s.pool = b ++ g :: a) :
    walkCost env (crawlStep env s b a g) < walkCost env s := by
  have hs : walkCost env s =
      (b.map (Crawler.cost env)).sum + (g.cost env + (a.map (Crawler.cost env)).sum) := by
    simp [walkCost, hp]
  rw [hs]
  apply crawlStep_cases env (fun s' => walkCost env s' <
    (b.map (Crawler.cost env)).sum + (g.cost env + (a.map (Crawler.cost env)).sum))
  · rintro u d rfl -
    have := crawler_cost_pos env (.crawl u d)
    simp only [walkCost, List.map_append, List.sum_append]
    omega
  · rintro u d rfl hd -
    have h11 : 11 - d = (10 - d) + 1 := by omega
    simp only [walkCost, List.map_append, List.sum_append, List.map_cons, List.sum_cons,
      Crawler.cost, h11, crawlCost]
    omega
  · rintro u d rfl -
    simp only [walkCost, List.map_append, List.sum_append, Crawler.cost]
    omega
  · rintro u d urls rfl hl
    have hsm : sitemapsOf env u = (isSiteMap urls).1 := by simp [sitemapsOf, hl]
    simp only [walkCost, List.map_append, List.sum_append, List.map_cons, List.sum_cons,
      Crawler.cost, hsm]
    omega
  · rintro u d sms pages rfl
    have h11 : ∀ c : String, crawlCost env (11 - (d + 1)) c = crawlCost env (10 - d) c := by
      intro c
      congr 1
      omega
    have hmap : (sms.map (fun sitemapURL => Crawler.crawl sitemapURL (d + 1))).map
        (Crawler.cost env) = sms.map (crawlCost env (10 - d)) := by
      rw [List.map_map]
      apply List.map_congr_left
      intro c _
      exact h11 c
    simp only [walkCost, List.map_append, List.sum_append, hmap, Crawler.cost]
    omega

theorem walkStep_of_pool_nil (env : Env) (s : WalkState) (i : Nat) (h : s.pool = []) :
    walkStep env s i = s := by
  simp [walkStep, choose, pick, h]

theorem walkRun_of_pool_nil (env : Env) (sched : List Nat) :
    ∀ s : WalkState, s.pool = [] → walkRun env s sched = s := by
  induction sched with
  | nil => intro s _; rfl
  | cons i sched ih =>
    intro s h
    rw [walkRun, walkStep_of_pool_nil env s i h]
    exact ih s h

theorem walkStep_cost (env : Env) (s : WalkState) (i : Nat) (h : s.pool ≠ []) :
    walkCost env (walkStep env s i) < walkCost env s := by
  unfold walkStep
  have hpos : 0 < s.pool.countP (fun _ => true) := by
    cases hpool : s.pool with
    | nil => exact absurd hpool h
    | cons g l => simp
  have := choose_isSome (fun _ => true) s.pool i hpos
  cases hc : choose (fun _ => true) s.pool i with
  | none => simp [hc] at this
  | some r =>
    obtain ⟨b, g, a⟩ := r
    exact walkCost_step env s b g a (choose_eq_some hc).1

theorem pool_nil_of_walkCost (env : Env) (s : WalkState) (h : walkCost env s = 0) :
    s.pool = [] := by
  cases hpool : s.pool with
  | nil => rfl
  | cons g l =>
    have := crawler_cost_pos env g
    simp [walkCost, hpool] at h
    omega

theorem walkRun_done (env : Env) (sched : List Nat) :
    ∀ s : WalkState, walkCost env s ≤ sched.length → (walkRun env s sched).pool = [] := by
  induction sched with
  | nil =>
    intro s h
    exact pool_nil_of_walkCost env s (by simpa using h)
  | cons i sched ih =>
    intro s h
    rw [walkRun]
    by_cases hp : s.pool = []
    · rw [walkStep_of_pool_nil env s i hp, walkRun_of_pool_nil env sched s hp]
      exact hp
    · apply ih
      have := walkStep_cost env s i hp
      simp only [List.length_cons] at h
      omega

/-! ## The walk: what holds in every reachable state -/

theorem visitedInv_run (env : Env) (seed : String) (sched : List Nat) :
    VisitedInv (walkRun env (walkInit seed) sched) :=
  walkRun_invariant env VisitedInv (fun s b g a h hp => visitedInv_step env s b g a h hp) sched _
    ⟨by simp [walkInit], by simp [walkInit, WalkState.requested, Crawler.pendingRequest]⟩

theorem pagesInv_run (env : Env) (seed : String) (sched : List Nat) :
    PagesInv env (walkRun env (walkInit seed) sched) :=
  walkRun_invariant env (PagesInv env) (fun s b g a h hp => pagesInv_step env s b g a h hp) sched _
    (by simp [PagesInv, walkInit, WalkState.requested, Crawler.pendingPages])

theorem levelInv_run (env : Env) (seed : String) (sched : List Nat) :
    LevelInv env seed (walkRun env (walkInit seed) sched) :=
  walkRun_invariant env (LevelInv env seed)
    (fun s b g a h hp => levelInv_step env seed s b g a h hp) sched _
    ⟨by simp [walkInit, Crawler.wellPlaced, level], by simp [walkInit]⟩

theorem coverInv_run (env : Env) (seed : String) (sched : List Nat) :
    CoverInv env seed (walkRun env (walkInit seed) sched) :=
  walkRun_invariant env (CoverInv env seed)
    (fun s b g a h hp => coverInv_step env seed s b g a h hp) sched _
    ⟨by simp [walkInit], by simp [walkInit]⟩



/-! ## The walk: the claims -/

theorem sitemapsOf_subset_listed (env : Env) (v : String) : sitemapsOf env v ⊆ listed env v := by
  intro c hc
  unfold sitemapsOf at hc
  unfold listed
  cases hl : listing env v with
  | none => simp [hl] at hc
  | some urls =>
    simp only [hl] at hc ⊢
    exact (mem_isSiteMap_fst.1 hc).1

theorem pagesOf_subset_listed (env : Env) (v : String) : pagesOf env v ⊆ listed env v := by
  intro c hc
  unfold pagesOf at hc
  unfold listed
  cases hl : listing env v with
  | none => simp [hl] at hc
  | some urls =>
    simp only [hl] at hc ⊢
    exact (mem_isSiteMap_snd.1 hc).1

theorem level_subset_hops (env : Env) (seed : String) :
    ∀ n, level env seed n ⊆ hops env seed n := by
  intro n
  induction n with
  | zero => simp [level, hops]
  | succ n ih =>
    intro c hc
    simp only [level, hops, List.mem_flatMap] at hc ⊢
    obtain ⟨v, hv, hc⟩ := hc
    exact ⟨v, ih hv, sitemapsOf_subset_listed env v hc⟩

theorem mem_within {env : Env} {seed : String} {d : Nat} {u : String} :
    u ∈ within env seed d ↔ ∃ n, n ≤ d ∧ u ∈ hops env seed n := by
  simp only [within, List.mem_flatMap, List.mem_range]
  constructor
  · rintro ⟨n, hn, hu⟩
    exact ⟨n, by omega, hu⟩
  · rintro ⟨n, hn, hu⟩
    exact ⟨n, by omega, hu⟩

theorem mem_toCrawl_source (env : Env) (seed : String) (sched : List Nat) (u : String)
    (hu : u ∈ (walkRun env (walkInit seed) sched).toCrawl) :
    ∃ v d, (v, d) ∈ (walkRun env (walkInit seed) sched).processed ∧ u ∈ pagesOf env v := by
  have hperm := pagesInv_run env seed sched
  unfold PagesInv at hperm
  have h1 : u ∈ (walkRun env (walkInit seed) sched).requested.flatMap (pagesOf env) :=
    hperm.subset (List.mem_append_left _ hu)
  obtain ⟨v, hv, huv⟩ := List.mem_flatMap.1 h1
  simp only [WalkState.requested, List.mem_map] at hv
  obtain ⟨⟨v', d⟩, hp, rfl⟩ := hv
  exact ⟨v', d, hp, huv⟩

/-- C2: under every schedule, in every state of the walk, the sequence of URLs passed
to `makeRequest` has no repeated element. -/
theorem walk_requests_nodup (env : Env) (seed : String) (sched : List Nat) :
    (walkRun env (walkInit seed) sched).requested.Nodup := by
  have h := visitedInv_run env seed sched
  exact ((h.perm.nodup_iff).1 h.nodup).of_append_left

/-- C3, refuted as stated: on the chain `0.xml → ... → 10.xml`, the page `p` listed at
`10.xml` is returned by the walk, is at graph distance 11 from the seed and is not
within distance 10. -/
theorem walk_depth_bound_counterexample :
    "p" ∈ extractSiteMapUrls chainEnv "0.xml" (List.replicate 34 0) ∧
      "p" ∉ within chainEnv "0.xml" 10 ∧ "p" ∈ hops chainEnv "0.xml" 11 := by
  decide

/-- C3, amended: every URL the walk returns is listed at a node that was requested at a
depth of at most 10 and lies at that graph distance from the seed; so no URL at graph
distance greater than 11 is returned. -/
theorem walk_depth_bound (env : Env) (seed : String) (sched : List Nat) (u : String)
    (hu : u ∈ extractSiteMapUrls env seed sched) :
    u ∈ within env seed 11 ∧
      ∃ v d, d ≤ 10 ∧ (v, d) ∈ (walkRun env (walkInit seed) sched).processed ∧
        v ∈ hops env seed d ∧ u ∈ listed env v := by
  obtain ⟨v, d, hp, huv⟩ := mem_toCrawl_source env seed sched u hu
  obtain ⟨hd, hv⟩ := (levelInv_run env seed sched).processed (v, d) hp
  have hv' := level_subset_hops env seed d hv
  have hl := pagesOf_subset_listed env v huv
  refine ⟨mem_within.2 ⟨d + 1, by omega, ?_⟩, v, d, hd, hp, hv', hl⟩
  simp only [hops, List.mem_flatMap]
  exact ⟨v, hv', hl⟩

theorem walk_depth_bound_witness :
    "p" ∈ extractSiteMapUrls chainEnv "0.xml" (List.replicate 34 0) ∧
      "p" ∈ within chainEnv "0.xml" 11 :=
  ⟨by decide, (walk_depth_bound chainEnv "0.xml" (List.replicate 34 0) "p" (by decide)).1⟩

theorem walk_ends (env : Env) (seed : String) (sched : List Nat)
    (h : crawlCost env 11 seed ≤ sched.length) :
    (walkRun env (walkInit seed) sched).pool = [] := by
  apply walkRun_done
  simpa [walkCost, walkInit, Crawler.cost] using h

/-- C8: the walk ends under every schedule: after at most `crawlCost env 11 seed` steps,
however the goroutines are interleaved and whatever the environment answers (cycles
included), `crawl(seed, 0)` and every call below it have returned.  The two facts the
bound rests on: a call with `depth > 10` returns at once, and the calls a crawler starts
have its depth plus one. -/
theorem crawl_terminates (env : Env) (seed : String) (sched : List Nat)
    (h : crawlCost env 11 seed ≤ sched.length) :
    (walkRun env (walkInit seed) sched).pool = [] ∧
      (∀ (s : WalkState) (b a : List Crawler) (u : String) (d : Nat), 10 < d →
        crawlStep env s b a (.crawl u d) = { s with pool := b ++ a }) ∧
      (∀ (s : WalkState) (b a : List Crawler) (u : String) (d : Nat) (sms pages : List String),
        (crawlStep env s b a (.publish u d sms pages)).pool =
          b ++ a ++ sms.map (fun c => .crawl c (d + 1))) := by
  refine ⟨walk_ends env seed sched h, ?_, ?_⟩
  · intro s b a u d hd
    simp [crawlStep, hd]
  · intro s b a u d sms pages
    rfl

theorem crawl_terminates_witness :
    crawlCost cycleEnv 11 "a.xml" ≤ (List.replicate 34 0).length ∧
      (walkRun cycleEnv (walkInit "a.xml") (List.replicate 34 0)).pool = [] :=
  ⟨by decide, (crawl_terminates cycleEnv "a.xml" (List.replicate 34 0) (by decide)).1⟩


theorem flatMap_pagesOf (env : Env) (l : List String) :
    l.flatMap (pagesOf env) =
      (l.filterMap (listing env)).flatMap (fun urls => (isSiteMap urls).2) := by
  induction l with
  | nil => rfl
  | cons v l ih =>
    cases hl : listing env v with
    | none => simp [List.filterMap_cons, hl, pagesOf, ih]
    | some urls => simp [List.filterMap_cons, hl, pagesOf, ih]

theorem crawlStep_request_fail (env : Env) (s : WalkState) (b a : List Crawler) (u : String)
    (d : Nat) (hl : listing env u = none) :
    crawlStep env s b a (.request u d) =
      { s with processed := s.processed ++ [(u, d)], pool := b ++ a } := by
  unfold listing at hl
  cases h1 : env.makeRequest u with
  | none => simp [crawlStep, h1]
  | some response =>
    rw [h1] at hl
    simp only at hl
    simp [crawlStep, h1, hl]

theorem walk_final_perm (env : Env) (seed : String) (sched : List Nat)
    (hpool : (walkRun env (walkInit seed) sched).pool = []) :
    (walkRun env (walkInit seed) sched).toCrawl.Perm
      ((walkRun env (walkInit seed) sched).requested.flatMap (pagesOf env)) := by
  have h := pagesInv_run env seed sched
  unfold PagesInv at h
  simpa [hpool] using h

theorem walk_final_visited (env : Env) (seed : String) (sched : List Nat)
    (hpool : (walkRun env (walkInit seed) sched).pool = []) :
    (walkRun env (walkInit seed) sched).visited.Perm
      (walkRun env (walkInit seed) sched).requested := by
  have h := (visitedInv_run env seed sched).perm
  simpa [hpool] using h

theorem walk_final_children (env : Env) (seed : String) (sched : List Nat)
    (hpool : (walkRun env (walkInit seed) sched).pool = []) (v : String) (d : Nat)
    (hp : (v, d) ∈ (walkRun env (walkInit seed) sched).processed) (hd : d < 10) (c : String)
    (hc : c ∈ sitemapsOf env v) : c ∈ (walkRun env (walkInit seed) sched).requested := by
  have h := (coverInv_run env seed sched).children (v, d) hp hd c hc
  rw [hpool] at h
  simp only [List.not_mem_nil, exists_false, or_false] at h
  exact (walk_final_visited env seed sched hpool).subset h

theorem walk_final_seed (env : Env) (seed : String) (sched : List Nat)
    (hpool : (walkRun env (walkInit seed) sched).pool = []) :
    seed ∈ (walkRun env (walkInit seed) sched).requested := by
  have h := (coverInv_run env seed sched).seed
  rw [hpool] at h
  simp only [List.not_mem_nil, or_false] at h
  exact (walk_final_visited env seed sched hpool).subset h

theorem level_of_failing_seed (env : Env) (seed : String) (hl : listing env seed = none) :
    ∀ n, ∀ v ∈ level env seed n, v = seed := by
  intro n
  induction n with
  | zero => simp [level]
  | succ n ih =>
    intro v hv
    simp only [level, List.mem_flatMap] at hv
    obtain ⟨w, hw, hv⟩ := hv
    rw [ih w hw] at hv
    simp [sitemapsOf, hl] at hv

theorem mem_toCrawl_listing (env : Env) (seed : String) (sched : List Nat) (p : String)
    (hp : p ∈ extractSiteMapUrls env seed sched) :
    ∃ v ∈ (walkRun env (walkInit seed) sched).requested,
      ∃ urls, listing env v = some urls ∧ p ∈ (isSiteMap urls).2 := by
  obtain ⟨v, d, hv, hpv⟩ := mem_toCrawl_source env seed sched p hp
  refine ⟨v, ?_, ?_⟩
  · simp only [WalkState.requested, List.mem_map]
    exact ⟨(v, d), hv, rfl⟩
  · unfold pagesOf at hpv
    cases hl : listing env v with
    | none => simp [hl] at hpv
    | some urls =>
      simp only [hl] at hpv
      exact ⟨urls, rfl, hpv⟩

theorem toCrawl_nil_of_failing_seed (env : Env) (seed : String) (sched : List Nat)
    (hl : listing env seed = none) : extractSiteMapUrls env seed sched = [] := by
  rw [List.eq_nil_iff_forall_not_mem]
  intro p hp
  obtain ⟨v, d, hv, hpv⟩ := mem_toCrawl_source env seed sched p hp
  have hlev := (levelInv_run env seed sched).processed (v, d) hv
  have hvs : v = seed := level_of_failing_seed env seed hl d v hlev.2
  rw [hvs] at hpv
  simp [pagesOf, hl] at hpv

/-- C6, refuted as stated: on `siteEnv`, when the `select` returns after seven steps
(the timer case), the walk has requested `s.xml`, the failing `bad.xml` and its sibling
`a.xml`; `a.xml` lists the page `p1`, yet `p1` is not in the returned list. -/
theorem walk_failure_contained_counterexample :
    (walkRun siteEnv (walkInit "s.xml") [0, 0, 0, 2, 2, 0, 0]).requested =
        ["s.xml", "bad.xml", "a.xml"] ∧
      listing siteEnv "bad.xml" = none ∧
      listing siteEnv "a.xml" = some ["p1", "p2", "p1"] ∧
      "p1" ∈ (isSiteMap ["p1", "p2", "p1"]).2 ∧
      "p1" ∉ extractSiteMapUrls siteEnv "s.xml" [0, 0, 0, 2, 2, 0, 0] := by
  decide

/-- C6, amended: a node whose request or extraction fails only logs its request: it
appends no page and starts no crawler, and whenever the `select` returns every returned
URL is a page of a requested node whose request and extraction succeeded; a failing seed
gives the empty list whenever the `select` returns.  When the walk has run to completion
(the `done` case), the seed has been requested, the returned list is, up to order, the
pages of exactly the requested nodes that succeeded, and every sitemap listed at a node
requested above depth 10 is itself requested, whatever happens to its siblings. -/
theorem walk_failure_contained (env : Env) (seed : String) (sched : List Nat)
    (hdone : crawlCost env 11 seed ≤ sched.length) :
    (∀ (s : WalkState) (b a : List Crawler) (u : String) (d : Nat), listing env u = none →
        crawlStep env s b a (.request u d) =
          { s with processed := s.processed ++ [(u, d)], pool := b ++ a }) ∧
      (∀ (early : List Nat) (p : String), p ∈ extractSiteMapUrls env seed early →
        ∃ v ∈ (walkRun env (walkInit seed) early).requested,
          ∃ urls, listing env v = some urls ∧ p ∈ (isSiteMap urls).2) ∧
      (listing env seed = none → ∀ early : List Nat, extractSiteMapUrls env seed early = []) ∧
      seed ∈ (walkRun env (walkInit seed) sched).requested ∧
      (extractSiteMapUrls env seed sched).Perm
        (((walkRun env (walkInit seed) sched).requested.filterMap (listing env)).flatMap
          (fun urls => (isSiteMap urls).2)) ∧
      (∀ v d, (v, d) ∈ (walkRun env (walkInit seed) sched).processed → d < 10 →
        ∀ c ∈ sitemapsOf env v, c ∈ (walkRun env (walkInit seed) sched).requested) := by
  have hpool := walk_ends env seed sched hdone
  have hperm := walk_final_perm env seed sched hpool
  rw [flatMap_pagesOf] at hperm
  exact ⟨fun s b a u d hl => crawlStep_request_fail env s b a u d hl,
    fun early p hp => mem_toCrawl_listing env seed early p hp,
    fun hl early => toCrawl_nil_of_failing_seed env seed early hl,
    walk_final_seed env seed sched hpool, hperm,
    fun v d hp hd c hc => walk_final_children env seed sched hpool v d hp hd c hc⟩

theorem walk_failure_contained_witness :
    crawlCost siteEnv 11 "s.xml" ≤ (List.replicate 15 0).length ∧
      "s.xml" ∈ (walkRun siteEnv (walkInit "s.xml") (List.replicate 15 0)).requested ∧
      (extractSiteMapUrls siteEnv "s.xml" (List.replicate 15 0)).Perm
        ["p0", "p1", "p2", "p1", "q1", "p1", "q2"] ∧
      ∀ c ∈ sitemapsOf siteEnv "s.xml",
        c ∈ (walkRun siteEnv (walkInit "s.xml") (List.replicate 15 0)).requested :=
  ⟨by decide,
    (walk_failure_contained siteEnv "s.xml" (List.replicate 15 0) (by decide)).2.2.2.1,
    ((walk_failure_contained siteEnv "s.xml" (List.replicate 15 0) (by decide)).2.2.2.2.1).trans
      (by decide),
    (walk_failure_contained siteEnv "s.xml" (List.replicate 15 0) (by decide)).2.2.2.2.2
      "s.xml" 0 (by decide) (by decide)⟩

/-! ## The pool: invariants and termination -/

theorem poolRun_invariant (env : Env) (k : Nat) (P : PoolState → Prop)
    (hstep : ∀ s b w a, P s → s.workers = b ++ w :: a → canMove k s w = true →
      P (workerStep env s b a w)) :
    ∀ (sched : List Nat) (s : PoolState), P s → P (poolRun env k s sched) := by
  intro sched
  induction sched with
  | nil => intro s h; exact h
  | cons i sched ih =>
    intro s h
    apply ih
    unfold poolStep
    cases hc : choose (canMove k s) s.workers i with
    | none => exact h
    | some r =>
      obtain ⟨b, w, a⟩ := r
      exact hstep s b w a h (choose_eq_some hc).1 (choose_eq_some hc).2

theorem holders_split (b : List Worker) (w : Worker) (a : List Worker) :
    holders (b ++ w :: a) = holders b + w.holds + holders a := by
  simp [holders, Nat.add_assoc]

theorem holders_append (b a : List Worker) : holders (b ++ a) = holders b + holders a := by
  simp [holders]

theorem poolInv_step (env : Env) (urls : List String) (k : Nat) (s : PoolState)
    (b : List Worker) (w : Worker) (a : List Worker) (h : PoolInv env urls k s)
    (hp : s.workers = b ++ w :: a) (hok : canMove k s w = true) :
    PoolInv env urls k (workerStep env s b a w) := by
  obtain ⟨hteq, htle, hurls, hres⟩ := h
  rw [hp] at hteq hurls hres
  rw [holders_split] at hteq
  rw [List.perm_iff_count] at hurls hres
  cases w with
  | queued url =>
    have hlt : s.tokens < k := by simpa [canMove] using hok
    refine ⟨?_, ?_, List.perm_iff_count.2 fun x => ?_, List.perm_iff_count.2 fun x => ?_⟩
    · simp only [workerStep, holders_split, Worker.holds] at hteq ⊢
      omega
    · simp only [workerStep]
      omega
    · have := hurls x
      simp only [workerStep, Worker.pendingUrl, List.flatMap_append, List.flatMap_cons,
        List.count_append] at this ⊢
      omega
    · have := hres x
      simp only [workerStep, Worker.pendingResult, List.flatMap_append, List.flatMap_cons,
        List.count_append] at this ⊢
      omega
  | fetching url =>
    refine ⟨?_, htle, List.perm_iff_count.2 fun x => ?_, List.perm_iff_count.2 fun x => ?_⟩
    · simp only [workerStep, holders_split, Worker.holds] at hteq ⊢
      omega
    · have := hurls x
      simp only [workerStep, Worker.pendingUrl, List.flatMap_append, List.flatMap_cons,
        List.count_append, List.count_cons, List.count_nil] at this ⊢
      omega
    · have := hres x
      cases hsp : scrapePage env url with
      | none =>
        simp only [workerStep, Worker.pendingResult, List.flatMap_append, List.flatMap_cons,
          List.count_append, List.count_cons, List.count_nil, List.filterMap_append,
          List.filterMap_cons, List.filterMap_nil, hsp] at this ⊢
        omega
      | some r =>
        simp only [workerStep, Worker.pendingResult, List.flatMap_append, List.flatMap_cons,
          List.count_append, List.count_cons, List.count_nil, List.filterMap_append,
          List.filterMap_cons, List.filterMap_nil, hsp] at this ⊢
        omega
  | releasing url res =>
    refine ⟨?_, ?_, List.perm_iff_count.2 fun x => ?_, List.perm_iff_count.2 fun x => ?_⟩
    · simp only [workerStep, holders_split, Worker.holds] at hteq ⊢
      omega
    · simp only [workerStep]
      omega
    · have := hurls x
      simp only [workerStep, Worker.pendingUrl, List.flatMap_append, List.flatMap_cons,
        List.count_append] at this ⊢
      omega
    · have := hres x
      cases res with
      | none =>
        simp only [workerStep, Worker.pendingResult, List.flatMap_append, List.flatMap_cons,
          List.count_append] at this ⊢
        omega
      | some r =>
        simp only [workerStep, Worker.pendingResult, List.flatMap_append, List.flatMap_cons,
          List.count_append] at this ⊢
        omega
  | collecting url res =>
    cases res with
    | none =>
      refine ⟨?_, htle, List.perm_iff_count.2 fun x => ?_, List.perm_iff_count.2 fun x => ?_⟩
      · simp only [workerStep, holders_append, Worker.holds] at hteq ⊢
        omega
      · have := hurls x
        simp only [workerStep, Worker.pendingUrl, List.flatMap_append, List.flatMap_cons,
          List.count_append, List.count_nil] at this ⊢
        omega
      · have := hres x
        simp only [workerStep, Worker.pendingResult, List.flatMap_append, List.flatMap_cons,
          List.count_append, List.count_nil] at this ⊢
        omega
    | some r =>
      refine ⟨?_, htle, List.perm_iff_count.2 fun x => ?_, List.perm_iff_count.2 fun x => ?_⟩
      · simp only [workerStep, holders_append, Worker.holds] at hteq ⊢
        omega
      · have := hurls x
        simp only [workerStep, Worker.pendingUrl, List.flatMap_append, List.flatMap_cons,
          List.count_append, List.count_nil] at this ⊢
        omega
      · have := hres x
        simp only [workerStep, Worker.pendingResult, List.flatMap_append, List.flatMap_cons,
          List.count_append, List.count_nil, List.count_cons] at this ⊢
        omega

theorem poolInv_init (env : Env) (urls : List String) (k : Nat) :
    PoolInv env urls k (poolInit urls) := by
  refine ⟨?_, Nat.zero_le _, ?_, ?_⟩
  · induction urls with
    | nil => rfl
    | cons u urls ih =>
      simp only [poolInit, holders, List.map_cons, List.sum_cons, Worker.holds] at ih ⊢
      omega
  · induction urls with
    | nil => simp [poolInit]
    | cons u urls ih =>
      simpa [poolInit, Worker.pendingUrl] using ih
  · induction urls with
    | nil => simp [poolInit]
    | cons u urls ih =>
      simp [poolInit, Worker.pendingResult]

theorem poolInv_run (env : Env) (urls : List String) (k : Nat) (sched : List Nat) :
    PoolInv env urls k (poolRun env k (poolInit urls) sched) :=
  poolRun_invariant env k (PoolInv env urls k)
    (fun s b w a h hp hok => poolInv_step env urls k s b w a h hp hok) sched _
    (poolInv_init env urls k)


theorem worker_cost_pos (w : Worker) : 0 < w.cost := by
  cases w <;> simp [Worker.cost]

theorem poolCost_step (env : Env) (s : PoolState) (b : List Worker) (w : Worker)
    (a : List Worker) (hp : s.workers = b ++ w :: a) :
    poolCost (workerStep env s b a w) < poolCost s := by
  have hs : poolCost s = (b.map Worker.cost).sum + (w.cost + (a.map Worker.cost).sum) := by
    simp [poolCost, hp]
  rw [hs]
  cases w with
  | queued url =>
    simp only [poolCost, workerStep, List.map_append, List.map_cons, List.sum_append,
      List.sum_cons, Worker.cost]
    omega
  | fetching url =>
    simp only [poolCost, workerStep, List.map_append, List.map_cons, List.sum_append,
      List.sum_cons, Worker.cost]
    omega
  | releasing url res =>
    simp only [poolCost, workerStep, List.map_append, List.map_cons, List.sum_append,
      List.sum_cons, Worker.cost]
    omega
  | collecting url res =>
    cases res <;>
    · simp only [poolCost, workerStep, List.map_append, List.sum_append, Worker.cost]
      omega

theorem exists_holder : ∀ ws : List Worker, 0 < holders ws → ∃ w ∈ ws, w.holds = 1 := by
  intro ws
  induction ws with
  | nil => intro h; simp [holders] at h
  | cons w ws ih =>
    intro h
    by_cases hw : w.holds = 1
    · exact ⟨w, List.mem_cons_self _ _, hw⟩
    · have hw0 : w.holds = 0 := by
        cases w <;> simp [Worker.holds] at hw ⊢
      have : 0 < holders ws := by
        simp only [holders, List.map_cons, List.sum_cons, hw0] at h ⊢
        omega
      obtain ⟨w', hw', h1⟩ := ih this
      exact ⟨w', List.mem_cons_of_mem _ hw', h1⟩

theorem pool_progress (k : Nat) (hk : 1 ≤ k) (s : PoolState)
    (hteq : s.tokens = holders s.workers) (hne : s.workers ≠ []) :
    0 < s.workers.countP (canMove k s) := by
  rw [List.countP_pos_iff]
  by_cases hlt : s.tokens < k
  · cases hw : s.workers with
    | nil => exact absurd hw hne
    | cons w ws =>
      refine ⟨w, List.mem_cons_self _ _, ?_⟩
      cases w <;> simp [canMove, hlt]
  · obtain ⟨w, hw, h1⟩ := exists_holder s.workers (by omega)
    refine ⟨w, hw, ?_⟩
    cases w <;> simp [canMove, Worker.holds] at h1 ⊢

theorem poolStep_of_workers_nil (env : Env) (k : Nat) (s : PoolState) (i : Nat)
    (h : s.workers = []) : poolStep env k s i = s := by
  simp [poolStep, choose, pick, h]

theorem poolRun_of_workers_nil (env : Env) (k : Nat) (sched : List Nat) :
    ∀ s : PoolState, s.workers = [] → poolRun env k s sched = s := by
  induction sched with
  | nil => intro s _; rfl
  | cons i sched ih =>
    intro s h
    rw [poolRun, poolStep_of_workers_nil env k s i h]
    exact ih s h

theorem workers_nil_of_poolCost (s : PoolState) (h : poolCost s = 0) : s.workers = [] := by
  cases hw : s.workers with
  | nil => rfl
  | cons w ws =>
    have := worker_cost_pos w
    simp [poolCost, hw] at h
    omega

theorem poolRun_done (env : Env) (urls : List String) (k : Nat) (hk : 1 ≤ k)
    (sched : List Nat) :
    ∀ s : PoolState, PoolInv env urls k s → poolCost s ≤ sched.length →
      (poolRun env k s sched).workers = [] := by
  induction sched with
  | nil =>
    intro s _ h
    exact workers_nil_of_poolCost s (by simpa using h)
  | cons i sched ih =>
    intro s hinv h
    rw [poolRun]
    by_cases hw : s.workers = []
    · rw [poolStep_of_workers_nil env k s i hw, poolRun_of_workers_nil env k sched s hw]
      exact hw
    · have hpos := pool_progress k hk s hinv.tokens_eq hw
      have hsome := choose_isSome (canMove k s) s.workers i hpos
      cases hc : choose (canMove k s) s.workers i with
      | none => simp [hc] at hsome
      | some r =>
        obtain ⟨b, w, a⟩ := r
        have hsplit := choose_eq_some hc
        have hstep : poolStep env k s i = workerStep env s b a w := by
          simp [poolStep, hc]
        rw [hstep]
        apply ih
        · exact poolInv_step env urls k s b w a hinv hsplit.1 hsplit.2
        · have := poolCost_step env s b w a hsplit.1
          simp only [List.length_cons] at h
          omega

theorem poolCost_init (urls : List String) : poolCost (poolInit urls) = 4 * urls.length := by
  induction urls with
  | nil => rfl
  | cons u urls ih =>
    simp only [poolCost, poolInit, List.map_cons, List.sum_cons, Worker.cost,
      List.length_cons] at ih ⊢
    omega

theorem pool_ends (env : Env) (urls : List String) (k : Nat) (hk : 1 ≤ k) (sched : List Nat)
    (h : 4 * urls.length ≤ sched.length) :
    (poolRun env k (poolInit urls) sched).workers = [] :=
  poolRun_done env urls k hk sched _ (poolInv_init env urls k) (by rw [poolCost_init]; exact h)

theorem pool_final_results (env : Env) (urls : List String) (k : Nat) (sched : List Nat)
    (hw : (poolRun env k (poolInit urls) sched).workers = []) :
    (poolRun env k (poolInit urls) sched).results.Perm (urls.filterMap (scrapePage env)) ∧
      (poolRun env k (poolInit urls) sched).requested.Perm urls := by
  have h := poolInv_run env urls k sched
  have h1 := h.urls_perm
  have h2 := h.results_perm
  rw [hw] at h1 h2
  simp only [List.flatMap_nil, List.append_nil] at h1 h2
  exact ⟨h2.trans (h1.symm.filterMap _), h1.symm⟩

theorem scrapeUrls_eq_some (env : Env) (urls : List String) (k : Nat) (sched : List Nat)
    (res : List SeoData) (h : scrapeUrls env urls k sched = some res) :
    (poolRun env k (poolInit urls) sched).workers = [] ∧
      res = (poolRun env k (poolInit urls) sched).results := by
  unfold scrapeUrls at h
  simp only at h
  split_ifs at h with hw
  exact ⟨hw, by simpa using h.symm⟩

theorem scrapeUrls_returns (env : Env) (urls : List String) (k : Nat) (hk : 1 ≤ k)
    (sched : List Nat) (h : 4 * urls.length ≤ sched.length) :
    scrapeUrls env urls k sched = some (poolRun env k (poolInit urls) sched).results := by
  unfold scrapeUrls
  simp [pool_ends env urls k hk sched h]


/-! ## The pool: the claims -/

theorem inFlight_le_holders : ∀ ws : List Worker, inFlight ws ≤ holders ws := by
  intro ws
  induction ws with
  | nil => simp [inFlight, holders]
  | cons w ws ih =>
    cases w <;>
    · simp only [inFlight, holders, List.countP_cons, List.map_cons, List.sum_cons,
        Worker.holds] at ih ⊢
      simp
      omega

theorem length_filterMap_scrapePage (env : Env) (urls : List String) :
    (urls.filterMap (scrapePage env)).length =
      urls.countP (fun u => (env.makeRequest u).isSome) := by
  induction urls with
  | nil => rfl
  | cons u urls ih =>
    cases h : env.makeRequest u with
    | none => simp [List.filterMap_cons, scrapePage, h, ih]
    | some r => simp [List.filterMap_cons, scrapePage, h, ih]

/-- C9: under every schedule, in every state of the pool, the number of workers holding
a slot of `tokens` equals the number of buffered tokens and is at most `concurrency`;
the workers inside `makeRequest` are among them. -/
theorem pool_concurrency_bound (env : Env) (urls : List String) (concurrency : Nat)
    (sched : List Nat) :
    inFlight (poolRun env concurrency (poolInit urls) sched).workers ≤
        holders (poolRun env concurrency (poolInit urls) sched).workers ∧
      holders (poolRun env concurrency (poolInit urls) sched).workers ≤ concurrency ∧
      (poolRun env concurrency (poolInit urls) sched).tokens =
        holders (poolRun env concurrency (poolInit urls) sched).workers := by
  have h := poolInv_run env urls concurrency sched
  refine ⟨inFlight_le_holders _, ?_, h.tokens_eq⟩
  have h1 := h.tokens_eq
  have h2 := h.tokens_le
  omega

/-- C4: with `concurrency ≥ 1`, under every schedule that is long enough, `scrapeUrls`
returns; whenever it returns, the result is, up to order, one `SeoData` per element of
`urls` whose request succeeds and nothing for the others, so its length is the number
of successful requests and at most `len(urls)`. -/
theorem scrapeUrls_spec (env : Env) (urls : List String) (concurrency : Nat)
    (sched : List Nat) (hk : 1 ≤ concurrency) (hlen : 4 * urls.length ≤ sched.length) :
    (∃ res, scrapeUrls env urls concurrency sched = some res) ∧
      ∀ (sched' : List Nat) (res : List SeoData),
        scrapeUrls env urls concurrency sched' = some res →
          res.Perm (urls.filterMap (scrapePage env)) ∧
            res.length = urls.countP (fun u => (env.makeRequest u).isSome) ∧
            res.length ≤ urls.length := by
  refine ⟨⟨_, scrapeUrls_returns env urls concurrency hk sched hlen⟩, ?_⟩
  intro sched' res hres
  obtain ⟨hw, rfl⟩ := scrapeUrls_eq_some env urls concurrency sched' res hres
  have hperm := (pool_final_results env urls concurrency sched' hw).1
  have hl := hperm.length_eq
  rw [length_filterMap_scrapePage] at hl
  refine ⟨hperm, hl, ?_⟩
  rw [hl]
  exact List.countP_le_length _

theorem scrapeUrls_spec_witness :
    1 ≤ 2 ∧ 4 * ["p1", "q3", "p2", "down", "q2"].length ≤ (List.replicate 20 0).length ∧
      ∃ res, scrapeUrls siteEnv ["p1", "q3", "p2", "down", "q2"] 2 (List.replicate 20 0) =
        some res ∧ res.length = 3 := by
  refine ⟨by decide, by decide, ?_⟩
  have h := scrapeUrls_spec siteEnv ["p1", "q3", "p2", "down", "q2"] 2 (List.replicate 20 0)
    (by decide) (by decide)
  obtain ⟨⟨res, hres⟩, hall⟩ := h
  exact ⟨res, hres, (hall _ res hres).2.1.trans (by decide)⟩

/-! ## Walk and pool together -/

theorem count_pagesOf (env : Env) (v p : String) (hp : foundSitemap p = false) :
    (pagesOf env v).count p = (listed env v).count p := by
  unfold pagesOf listed
  cases hl : listing env v with
  | none => rfl
  | some urls =>
    simp only [isSiteMap_eq]
    exact List.count_filter (by simp [hp])

theorem count_flatMap_pagesOf (env : Env) (l : List String) (p : String)
    (hp : foundSitemap p = false) :
    (l.flatMap (pagesOf env)).count p = (l.flatMap (listed env)).count p := by
  induction l with
  | nil => rfl
  | cons v l ih =>
    simp only [List.flatMap_cons, List.count_append, ih, count_pagesOf env v p hp]

theorem countP_url_filterMap (env : Env) (p : String) (r : Response)
    (hr : env.makeRequest p = some r) (l : List String) :
    (l.filterMap (scrapePage env)).countP (fun d => d.URL = p) = l.count p := by
  induction l with
  | nil => rfl
  | cons u l ih =>
    cases hu : env.makeRequest u with
    | none =>
      have hne : u ≠ p := by
        rintro rfl
        rw [hr] at hu
        cases hu
      simp [List.filterMap_cons, scrapePage, hu, ih, List.count_cons, hne]
    | some ru =>
      by_cases hup : u = p
      · subst hup
        simp [List.filterMap_cons, scrapePage, hu, ih, List.count_cons]
      · simp [List.filterMap_cons, scrapePage, hu, ih, List.count_cons, hup]

theorem scrapSiteMaps_returns (env : Env) (seed : String) (k : Nat) (walkSched poolSched : List Nat)
    (hk : 1 ≤ k)
    (hpool : 4 * (extractSiteMapUrls env seed walkSched).length ≤ poolSched.length) :
    ∃ res, scrapSiteMaps env seed k walkSched poolSched = some res ∧
      res.Perm ((extractSiteMapUrls env seed walkSched).filterMap (scrapePage env)) := by
  unfold scrapSiteMaps
  simp only
  split_ifs with h0
  · refine ⟨[], rfl, ?_⟩
    rw [List.length_eq_zero] at h0
    rw [h0]
    exact List.Perm.refl _
  · refine ⟨_, scrapeUrls_returns env _ k hk poolSched hpool, ?_⟩
    exact (pool_final_results env _ k poolSched (pool_ends env _ k hk poolSched hpool)).1

theorem not_xml_of_mem_toCrawl (env : Env) (seed : String) (sched : List Nat) (u : String)
    (hu : u ∈ extractSiteMapUrls env seed sched) :
    ¬ "xml".data <:+: u.data ∧
      ∃ v ∈ (walkRun env (walkInit seed) sched).requested, u ∈ listed env v := by
  obtain ⟨v, d, hp, huv⟩ := mem_toCrawl_source env seed sched u hu
  refine ⟨?_, v, ?_, pagesOf_subset_listed env v huv⟩
  · unfold pagesOf at huv
    cases hl : listing env v with
    | none => simp [hl] at huv
    | some urls =>
      simp only [hl] at huv
      have := (mem_isSiteMap_snd.1 huv).2
      rw [← foundSitemap_iff, this]
      simp
  · simp only [WalkState.requested, List.mem_map]
    exact ⟨(v, d), hp, rfl⟩

theorem count_toCrawl_le (env : Env) (seed : String) (sched : List Nat) (p : String)
    (hp : ¬ "xml".data <:+: p.data) :
    (extractSiteMapUrls env seed sched).count p ≤
      ((walkRun env (walkInit seed) sched).requested.flatMap (listed env)).count p := by
  have hf : foundSitemap p = false := by
    rw [← Bool.not_eq_true, foundSitemap_iff]
    exact hp
  have h := pagesInv_run env seed sched
  unfold PagesInv at h
  have hc := h.count_eq p
  rw [List.count_append, count_flatMap_pagesOf env _ p hf] at hc
  unfold extractSiteMapUrls
  omega

/-- C10, refuted as stated: on `siteEnv`, when the `select` returns after eight steps
(the timer case), the requested nodes `s.xml`, `a.xml` and `b.xml` list the page `p1`
three times in total, but `p1` occurs only twice in the returned list. -/
theorem walk_output_multiplicity_counterexample :
    (walkRun siteEnv (walkInit "s.xml") (List.replicate 8 0)).requested =
        ["s.xml", "a.xml", "b.xml"] ∧
      ((walkRun siteEnv (walkInit "s.xml") (List.replicate 8 0)).requested.flatMap
        (listed siteEnv)).count "p1" = 3 ∧
      (extractSiteMapUrls siteEnv "s.xml" (List.replicate 8 0)).count "p1" = 2 := by
  decide

/-- C10, amended: the list the walk returns is not deduplicated.  Whenever the `select`
returns, each element of the list lacks "xml" and is listed at a requested node, and a
URL without "xml" occurs in it at most as many times as the requested nodes list it in
total.  When the walk has run to completion (the `done` case) it occurs exactly that
many times; the pool then requests it that many times, and when its request succeeds
`scrapSiteMaps` returns that many results for it. -/
theorem walk_output_multiplicity (env : Env) (seed : String) (concurrency : Nat)
    (walkSched poolSched : List Nat) (hk : 1 ≤ concurrency)
    (hwalk : crawlCost env 11 seed ≤ walkSched.length)
    (hpool : 4 * (extractSiteMapUrls env seed walkSched).length ≤ poolSched.length) :
    (∀ (early : List Nat) (u : String), u ∈ extractSiteMapUrls env seed early →
        ¬ "xml".data <:+: u.data ∧
          ∃ v ∈ (walkRun env (walkInit seed) early).requested, u ∈ listed env v) ∧
      (∀ (early : List Nat) (p : String), ¬ "xml".data <:+: p.data →
        (extractSiteMapUrls env seed early).count p ≤
          ((walkRun env (walkInit seed) early).requested.flatMap (listed env)).count p) ∧
      (∀ p : String, ¬ "xml".data <:+: p.data →
        (extractSiteMapUrls env seed walkSched).count p =
            ((walkRun env (walkInit seed) walkSched).requested.flatMap (listed env)).count p ∧
          (poolRun env concurrency (poolInit (extractSiteMapUrls env seed walkSched))
              poolSched).requested.count p =
            ((walkRun env (walkInit seed) walkSched).requested.flatMap (listed env)).count p) ∧
      ∃ res, scrapSiteMaps env seed concurrency walkSched poolSched = some res ∧
        ∀ (p : String) (r : Response), ¬ "xml".data <:+: p.data → env.makeRequest p = some r →
          res.countP (fun d => d.URL = p) =
            ((walkRun env (walkInit seed) walkSched).requested.flatMap (listed env)).count p := by
  have hend := walk_ends env seed walkSched hwalk
  have hperm := walk_final_perm env seed walkSched hend
  have hcount : ∀ p : String, ¬ "xml".data <:+: p.data →
      (extractSiteMapUrls env seed walkSched).count p =
        ((walkRun env (walkInit seed) walkSched).requested.flatMap (listed env)).count p := by
    intro p hp
    have hf : foundSitemap p = false := by
      rw [← Bool.not_eq_true, foundSitemap_iff]
      exact hp
    rw [← count_flatMap_pagesOf env _ p hf]
    exact hperm.count_eq p
  refine ⟨fun early u hu => not_xml_of_mem_toCrawl env seed early u hu,
    fun early p hp => count_toCrawl_le env seed early p hp, ?_, ?_⟩
  · intro p hp
    refine ⟨hcount p hp, ?_⟩
    rw [← hcount p hp]
    have hw := pool_ends env (extractSiteMapUrls env seed walkSched) concurrency hk poolSched hpool
    exact (pool_final_results env _ concurrency poolSched hw).2.count_eq p
  · obtain ⟨res, hres, hp⟩ := scrapSiteMaps_returns env seed concurrency walkSched poolSched hk hpool
    refine ⟨res, hres, ?_⟩
    intro p r hxml hr
    rw [hp.countP_eq, countP_url_filterMap env p r hr, hcount p hxml]

theorem walk_output_multiplicity_witness :
    (1 ≤ 2 ∧ crawlCost siteEnv 11 "s.xml" ≤ (List.replicate 15 0).length ∧
        4 * (extractSiteMapUrls siteEnv "s.xml" (List.replicate 15 0)).length ≤
          (List.replicate 28 0).length) ∧
      (extractSiteMapUrls siteEnv "s.xml" (List.replicate 15 0)).count "p1" = 3 ∧
      (poolRun siteEnv 2 (poolInit (extractSiteMapUrls siteEnv "s.xml" (List.replicate 15 0)))
        (List.replicate 28 0)).requested.count "p1" = 3 ∧
      ∃ res, scrapSiteMaps siteEnv "s.xml" 2 (List.replicate 15 0) (List.replicate 28 0) =
        some res ∧ res.countP (fun d => d.URL = "p1") = 3 := by
  have h := walk_output_multiplicity siteEnv "s.xml" 2 (List.replicate 15 0)
    (List.replicate 28 0) (by decide) (by decide) (by decide)
  have h1 := h.2.2.1 "p1" (by decide)
  obtain ⟨res, hres, hall⟩ := h.2.2.2
  exact ⟨⟨by decide, by decide, by decide⟩, h1.1.trans (by decide), h1.2.trans (by decide),
    res, hres, (hall "p1" ⟨200, "p1"⟩ (by decide) (by decide)).trans (by decide)⟩

/-! ## The happy path -/

theorem hierarchy_succ (env : Env) (seed : String) (n : Nat) :
    hierarchy env seed (n + 1) = hierarchy env seed n ++ level env seed n := by
  simp [hierarchy, List.range_succ, List.flatMap_append]

theorem mem_hierarchy {env : Env} {seed : String} {n : Nat} {v : String} :
    v ∈ hierarchy env seed n ↔ ∃ i, i < n ∧ v ∈ level env seed i := by
  simp [hierarchy, List.mem_flatMap]

theorem level_unique (env : Env) (seed : String) :
    ∀ n, (hierarchy env seed n).Nodup → ∀ i j v, i < n → j < n →
      v ∈ level env seed i → v ∈ level env seed j → i = j := by
  intro n
  induction n with
  | zero => intro _ i j v hi; omega
  | succ n ih =>
    intro hnd i j v hi hj hvi hvj
    rw [hierarchy_succ, List.nodup_append] at hnd
    obtain ⟨h1, -, hdis⟩ := hnd
    by_cases hin : i < n
    · by_cases hjn : j < n
      · exact ih h1 i j v hin hjn hvi hvj
      · have hj' : j = n := by omega
        subst hj'
        exact absurd hvj (fun h => hdis (mem_hierarchy.2 ⟨i, hin, hvi⟩) h)
    · have hi' : i = n := by omega
      subst hi'
      by_cases hjn : j < i
      · exact absurd hvi (fun h => hdis (mem_hierarchy.2 ⟨j, hjn, hvj⟩) h)
      · omega

theorem level_nil_of_le (env : Env) (seed : String) (m : Nat) (h : level env seed m = []) :
    ∀ n, m ≤ n → level env seed n = [] := by
  intro n hn
  induction n with
  | zero =>
    have : m = 0 := by omega
    subst this
    exact h
  | succ n ih =>
    by_cases hm : m = n + 1
    · subst hm
      exact h
    · simp [level, ih (by omega)]

theorem hierarchy_stable (env : Env) (seed : String) (m : Nat) (h : level env seed m = []) :
    ∀ n, m ≤ n → hierarchy env seed n = hierarchy env seed m := by
  intro n hn
  induction n with
  | zero =>
    have : m = 0 := by omega
    subst this
    rfl
  | succ n ih =>
    by_cases hm : m = n + 1
    · subst hm
      rfl
    · rw [hierarchy_succ, level_nil_of_le env seed m h n (by omega), List.append_nil]
      exact ih (by omega)

theorem walk_requested_subset_hierarchy (env : Env) (seed : String) (sched : List Nat) :
    ∀ v ∈ (walkRun env (walkInit seed) sched).requested, v ∈ hierarchy env seed 11 := by
  intro v hv
  simp only [WalkState.requested, List.mem_map] at hv
  obtain ⟨⟨v', d⟩, hp, rfl⟩ := hv
  obtain ⟨hd, hl⟩ := (levelInv_run env seed sched).processed (v', d) hp
  exact mem_hierarchy.2 ⟨d, by omega, hl⟩

theorem walk_requests_level (env : Env) (seed : String) (sched : List Nat)
    (hpool : (walkRun env (walkInit seed) sched).pool = [])
    (htree : (hierarchy env seed 11).Nodup) :
    ∀ d, d ≤ 10 → ∀ v ∈ level env seed d, v ∈ (walkRun env (walkInit seed) sched).requested := by
  intro d
  induction d with
  | zero =>
    intro _ v hv
    simp only [level, List.mem_singleton] at hv
    rw [hv]
    exact walk_final_seed env seed sched hpool
  | succ d ih =>
    intro hd v hv
    simp only [level, List.mem_flatMap] at hv
    obtain ⟨w, hw, hv⟩ := hv
    have hwreq := ih (by omega) w hw
    simp only [WalkState.requested, List.mem_map] at hwreq
    obtain ⟨⟨w', d'⟩, hp, hw'⟩ := hwreq
    simp only at hw'
    subst hw'
    obtain ⟨hd', hl'⟩ := (levelInv_run env seed sched).processed (w', d') hp
    have heq : d' = d := level_unique env seed 11 htree d' d w' (by omega) (by omega) hl' hw
    subst heq
    exact walk_final_children env seed sched hpool w' d' hp (by omega) v hv

theorem walk_requested_perm_hierarchy (env : Env) (seed : String) (sched : List Nat)
    (hpool : (walkRun env (walkInit seed) sched).pool = [])
    (htree : (hierarchy env seed 11).Nodup) :
    (walkRun env (walkInit seed) sched).requested.Perm (hierarchy env seed 11) := by
  have hnd : (walkRun env (walkInit seed) sched).requested.Nodup := by
    have h := visitedInv_run env seed sched
    exact ((h.perm.nodup_iff).1 h.nodup).of_append_left
  rw [List.perm_ext_iff_of_nodup hnd htree]
  intro v
  constructor
  · exact walk_requested_subset_hierarchy env seed sched v
  · intro hv
    obtain ⟨i, hi, hvi⟩ := mem_hierarchy.1 hv
    exact walk_requests_level env seed sched hpool htree i (by omega) v hvi

theorem filterMap_scrapePage_eq_map (env : Env) (l : List String)
    (h : ∀ p ∈ l, (env.makeRequest p).isSome = true) :
    l.filterMap (scrapePage env) = l.map (pageResult env) := by
  induction l with
  | nil => rfl
  | cons p l ih =>
    have hp := h p (List.mem_cons_self _ _)
    cases hr : env.makeRequest p with
    | none => simp [hr] at hp
    | some r =>
      rw [List.filterMap_cons, List.map_cons, ← ih (fun q hq => h q (List.mem_cons_of_mem _ hq))]
      simp [scrapePage, pageResult, statusOf, hr]

/-- C7, refuted as stated: `happyEnv` is a tree of depth 1 (the index `s.xml`, two
leaf sitemaps of three pages each, every request answering 200), yet when the `select`
of the walk returns after six steps (the timer case) only `a.xml` has been appended and
`scrapSiteMaps` returns three results for the six pages of the tree. -/
theorem scrapSiteMaps_happy_path_counterexample :
    (hierarchy happyEnv "s.xml" 11).Nodup ∧ level happyEnv "s.xml" 11 = [] ∧
      (hierarchy happyEnv "s.xml" 11).flatMap (pagesOf happyEnv) =
        ["p1", "p2", "p3", "q1", "q2", "q3"] ∧
      scrapSiteMaps happyEnv "s.xml" 2 (List.replicate 6 0) (List.replicate 12 0) =
        some
          [ { URL := "p1", Title := "", H1 := "", MetaDescription := "", StatusCode := 200 },
            { URL := "p2", Title := "", H1 := "", MetaDescription := "", StatusCode := 200 },
            { URL := "p3", Title := "", H1 := "", MetaDescription := "", StatusCode := 200 } ] := by
  decide

/-- C7, amended: when the sitemap hierarchy below the seed is a tree (no sitemap URL
occurs twice in it) of depth at most 10, every page listed in it can be fetched, and the
walk runs to completion before the `select` returns (the `done` case, not the timer),
then with `concurrency ≥ 1` `scrapSiteMaps` returns, and its result is, up to order, one
`SeoData` per page listing of the tree, holding the page URL and the status code the
page answers. -/
theorem scrapSiteMaps_happy_path (env : Env) (seed : String) (concurrency : Nat)
    (walkSched poolSched : List Nat) (hk : 1 ≤ concurrency)
    (htree : (hierarchy env seed 11).Nodup) (hdepth : level env seed 11 = [])
    (hpages : ∀ v ∈ hierarchy env seed 11, ∀ p ∈ pagesOf env v,
      (env.makeRequest p).isSome = true)
    (hwalk : crawlCost env 11 seed ≤ walkSched.length)
    (hpool : 4 * (extractSiteMapUrls env seed walkSched).length ≤ poolSched.length) :
    ∃ res, scrapSiteMaps env seed concurrency walkSched poolSched = some res ∧
      ∀ n, 11 ≤ n →
        res.Perm (((hierarchy env seed n).flatMap (pagesOf env)).map (pageResult env)) := by
  obtain ⟨res, hres, hperm⟩ :=
    scrapSiteMaps_returns env seed concurrency walkSched poolSched hk hpool
  refine ⟨res, hres, ?_⟩
  intro n hn
  rw [hierarchy_stable env seed 11 hdepth n hn]
  have hend := walk_ends env seed walkSched hwalk
  have h1 : (extractSiteMapUrls env seed walkSched).Perm
      ((hierarchy env seed 11).flatMap (pagesOf env)) :=
    (walk_final_perm env seed walkSched hend).trans
      ((walk_requested_perm_hierarchy env seed walkSched hend htree).flatMap_right _)
  have h2 : ((hierarchy env seed 11).flatMap (pagesOf env)).filterMap (scrapePage env) =
      ((hierarchy env seed 11).flatMap (pagesOf env)).map (pageResult env) := by
    apply filterMap_scrapePage_eq_map
    intro p hp
    obtain ⟨v, hv, hpv⟩ := List.mem_flatMap.1 hp
    exact hpages v hv p hpv
  rw [← h2]
  exact hperm.trans (h1.filterMap _)

theorem scrapSiteMaps_happy_path_witness :
    ∃ res, scrapSiteMaps happyEnv "s.xml" 2 (List.replicate 9 0) (List.replicate 24 0) =
        some res ∧
      res.Perm
        [ { URL := "p1", Title := "", H1 := "", MetaDescription := "", StatusCode := 200 },
          { URL := "p2", Title := "", H1 := "", MetaDescription := "", StatusCode := 200 },
          { URL := "p3", Title := "", H1 := "", MetaDescription := "", StatusCode := 200 },
          { URL := "q1", Title := "", H1 := "", MetaDescription := "", StatusCode := 200 },
          { URL := "q2", Title := "", H1 := "", MetaDescription := "", StatusCode := 200 },
          { URL := "q3", Title := "", H1 := "", MetaDescription := "", StatusCode := 200 } ] := by
  obtain ⟨res, hres, hperm⟩ :=
    scrapSiteMaps_happy_path happyEnv "s.xml" 2 (List.replicate 9 0) (List.replicate 24 0)
      (by decide) (by decide) (by decide) (fun _ _ _ _ => rfl) (by decide) (by decide)
  exact ⟨res, hres, (hperm 11 (Nat.le_refl _)).trans (by decide)⟩

end CrawlR
